import Mathlib

/-!
Verification of the metabench solution-representation / neighbor-generation /
incremental-fitness core against its specification.

All definitions are shallow embeddings of the Python source under
`metabench/` (file and line references are given on each definition).
Machine floats are modelled by exact rationals (`ℚ`) where the code only
performs field arithmetic, and by reals (`ℝ`) where the code computes
logarithms and powers; `numpy`'s cast to the integer dtype is modelled by
truncation toward zero.  Python exceptions are modelled with `Except PyErr`.
-/

namespace Metabench

/-- Python exception kinds raised by the modelled code paths. -/
inductive PyErr where
  | typeError
  | valueError
  | nameError
  | keyError
  deriving DecidableEq, Repr

/-! ### Modifs — `metabench/common/fitness/modif.py`

`Modifs` subclasses `collections.OrderedDict`; we model it as an ordered
association list from attribute index to a `(value_before, value_after)`
pair.  `OrderedDict.__setitem__` on an existing key updates the stored value
in place (keeping the key's position); on a fresh key it appends. -/

structure Modifs (V : Type) where
  entries : List (Nat × V × V)
  deriving DecidableEq, Repr

/-- First entry stored under a key in an ordered association list
(`dict` lookup; keys are unique for every list built through the
`Modifs` interface, so "first" is "the" entry). -/
def lookupEntries {V : Type} : List (Nat × V × V) → Nat → Option (V × V)
  | [], _ => none
  | e :: rest, i => if e.1 = i then some e.2 else lookupEntries rest i

namespace Modifs

/-- `Modifs.__init__` builds an empty ledger (modif.py line 22). -/
def empty {V : Type} : Modifs V := ⟨[]⟩

/-- `self.get(index, None)` (modif.py line 38). -/
def lookup {V : Type} (m : Modifs V) (index : Nat) : Option (V × V) :=
  lookupEntries m.entries index

/-- `Modifs.add_modif` (modif.py lines 25-42): if the index was already
recorded, keep the stored before-value and overwrite the after-value in
place; otherwise append a fresh `(before, after)` entry. -/
def add_modif {V : Type} (m : Modifs V) (index : Nat) (val_before val_after : V) :
    Modifs V :=
  match m.lookup index with
  | some cur =>
      ⟨m.entries.map (fun e => if e.1 = index then (index, cur.1, val_after) else e)⟩
  | none => ⟨m.entries ++ [(index, val_before, val_after)]⟩

/-- Number of entries stored under a given index. -/
def countKey {V : Type} (m : Modifs V) (index : Nat) : Nat :=
  m.entries.countP (fun e => e.1 = index)

/-- Apply a list of successive `(before, after)` edits to the same index,
via `add_modif`, left to right. -/
def chainEdits {V : Type} (m : Modifs V) (index : Nat) : List (V × V) → Modifs V
  | [] => m
  | (b, a) :: rest => chainEdits (m.add_modif index b a) index rest

end Modifs

section ModifsLemmas

variable {V : Type}

theorem lookupEntries_append_single (l : List (Nat × V × V)) (i j : Nat) (x : V × V) :
    lookupEntries (l ++ [(i, x.1, x.2)]) j =
      (lookupEntries l j).orElse (fun _ => if i = j then some x else none) := by
  induction l with
  | nil => simp [lookupEntries, Option.orElse]
  | cons e rest ih =>
      by_cases h : e.1 = j
      · simp [lookupEntries, h, Option.orElse]
      · simp only [List.cons_append, lookupEntries, if_neg h]
        exact ih

theorem Modifs.lookup_add_modif_fresh (m : Modifs V) (i : Nat) (b a : V)
    (h : m.lookup i = none) : (m.add_modif i b a).lookup i = some (b, a) := by
  unfold Modifs.add_modif
  rw [h]
  show lookupEntries (m.entries ++ [(i, b, a)]) i = some (b, a)
  rw [lookupEntries_append_single m.entries i i (b, a)]
  simp only [Modifs.lookup] at h
  rw [h]
  simp [Option.orElse]

theorem Modifs.lookup_add_modif_fresh_ne (m : Modifs V) (i j : Nat) (b a : V)
    (hm : m.lookup i = none) (hne : i ≠ j) :
    (m.add_modif i b a).lookup j = m.lookup j := by
  unfold Modifs.add_modif
  rw [hm]
  show lookupEntries (m.entries ++ [(i, b, a)]) j = m.lookup j
  rw [lookupEntries_append_single m.entries i j (b, a)]
  simp only [Modifs.lookup]
  cases hl : lookupEntries m.entries j with
  | some v => simp [Option.orElse]
  | none => simp [Option.orElse, hne]

theorem lookupEntries_map_update (l : List (Nat × V × V)) (i : Nat) (p a : V) :
    lookupEntries (l.map (fun e => if e.1 = i then (i, p, a) else e)) i =
      (lookupEntries l i).map (fun _ => (p, a)) := by
  induction l with
  | nil => simp [lookupEntries]
  | cons e rest ih =>
      by_cases h : e.1 = i
      · simp [lookupEntries, h]
      · simp only [List.map_cons, if_neg h, lookupEntries]
        exact ih

theorem Modifs.lookup_add_modif_seen (m : Modifs V) (i : Nat) (p q b a : V)
    (h : m.lookup i = some (p, q)) : (m.add_modif i b a).lookup i = some (p, a) := by
  unfold Modifs.add_modif
  rw [h]
  show lookupEntries (m.entries.map (fun e => if e.1 = i then (i, p, a) else e)) i
      = some (p, a)
  rw [lookupEntries_map_update m.entries i p a]
  simp only [Modifs.lookup] at h
  rw [h]
  rfl

theorem Modifs.countKey_add_modif_fresh (m : Modifs V) (i : Nat) (b a : V)
    (h : m.lookup i = none) : (m.add_modif i b a).countKey i = m.countKey i + 1 := by
  unfold Modifs.add_modif
  rw [h]
  show (m.entries ++ [(i, b, a)]).countP (fun e => decide (e.1 = i)) = m.countKey i + 1
  rw [List.countP_append]
  simp [Modifs.countKey, List.countP_cons]

theorem Modifs.countKey_add_modif_seen (m : Modifs V) (i : Nat) (p q b a : V)
    (h : m.lookup i = some (p, q)) : (m.add_modif i b a).countKey i = m.countKey i := by
  unfold Modifs.add_modif
  rw [h]
  show (m.entries.map (fun e => if e.1 = i then (i, p, a) else e)).countP
      (fun e => decide (e.1 = i)) = m.countKey i
  unfold Modifs.countKey
  induction m.entries with
  | nil => rfl
  | cons e rest ih =>
      by_cases he : e.1 = i
      · simp only [List.map_cons, if_pos he, List.countP_cons]
        simp only [List.countP_cons] at ih ⊢
        simp [he, ih]
      · simp only [List.map_cons, if_neg he, List.countP_cons]
        simp [he, ih]

theorem countP_key_zero_of_lookupEntries_none (i : Nat) :
    ∀ l : List (Nat × V × V), lookupEntries l i = none →
      l.countP (fun e => decide (e.1 = i)) = 0 := by
  intro l
  induction l with
  | nil => intro _; rfl
  | cons e rest ih =>
      intro hm
      by_cases he : e.1 = i
      · exfalso
        simp [lookupEntries, he] at hm
      · simp only [lookupEntries, if_neg he] at hm
        simp [List.countP_cons, he, ih hm]

theorem Modifs.countKey_one_of_lookup_fresh (m : Modifs V) (i : Nat) (b a : V)
    (hm : m.lookup i = none) : (m.add_modif i b a).countKey i = 1 := by
  rw [Modifs.countKey_add_modif_fresh m i b a hm]
  unfold Modifs.countKey
  rw [countP_key_zero_of_lookupEntries_none i m.entries hm]

/-- After a chain of successive edits applied to an index already holding
`(p, q)`, the entry keeps the first before-value `p` and carries the most
recent after-value. -/
theorem Modifs.chainEdits_seen (i : Nat) (es : List (V × V)) :
    ∀ (m : Modifs V) (p q : V), m.lookup i = some (p, q) → m.countKey i = 1 →
    (m.chainEdits i es).lookup i = some (p, ((es.getLast?).map Prod.snd).getD q) ∧
    (m.chainEdits i es).countKey i = 1 := by
  induction es with
  | nil =>
      intro m p q hl hc
      simpa [Modifs.chainEdits] using ⟨hl, hc⟩
  | cons e rest ih =>
      intro m p q hl hc
      obtain ⟨b, a⟩ := e
      have hl' := Modifs.lookup_add_modif_seen m i p q b a hl
      have hc' : (m.add_modif i b a).countKey i = 1 := by
        rw [Modifs.countKey_add_modif_seen m i p q b a hl]; exact hc
      obtain ⟨h1, h2⟩ := ih (m.add_modif i b a) p a hl' hc'
      simp only [Modifs.chainEdits]
      refine ⟨?_, h2⟩
      rw [h1]
      cases rest with
      | nil => simp
      | cons r rs =>
          obtain ⟨x, hx⟩ : ∃ x, (r :: rs).getLast? = some x :=
            Option.isSome_iff_exists.mp (List.getLast?_isSome.mpr (by simp))
          simp [List.getLast?_cons_cons, hx]

end ModifsLemmas

/-- C1: for every ledger in which index `i` is not yet recorded, calling
`add_modif(i, a, b)` and then `add_modif(i, b, c)` — followed by any number
of further successive edits to `i` — leaves exactly one entry for `i`, whose
before-value is the first recorded one (`a`) and whose after-value is the
most recent one (`c` when no further edits follow). -/
theorem add_modif_collapses_successive_edits {V : Type} (m : Modifs V) (i : Nat)
    (a b c : V) (rest : List (V × V)) (hfresh : m.lookup i = none) :
    (m.chainEdits i ((a, b) :: (b, c) :: rest)).countKey i = 1 ∧
    (m.chainEdits i ((a, b) :: (b, c) :: rest)).lookup i =
      some (a, ((rest.getLast?).map Prod.snd).getD c) := by
  have h1 := Modifs.lookup_add_modif_fresh m i a b hfresh
  have h2 := Modifs.countKey_one_of_lookup_fresh m i a b hfresh
  obtain ⟨hl, hc⟩ :=
    Modifs.chainEdits_seen i ((b, c) :: rest) (m.add_modif i a b) a b h1 h2
  have hstep : m.chainEdits i ((a, b) :: (b, c) :: rest)
      = (m.add_modif i a b).chainEdits i ((b, c) :: rest) := rfl
  refine ⟨by rw [hstep]; exact hc, ?_⟩
  rw [hstep, hl]
  cases rest with
  | nil => simp
  | cons r rs =>
      obtain ⟨x, hx⟩ : ∃ x, (r :: rs).getLast? = some x :=
        Option.isSome_iff_exists.mp (List.getLast?_isSome.mpr (by simp))
      simp [List.getLast?_cons_cons, hx]

/-- Witness for C1: on a fresh ledger, `add_modif(2, 10, 20)` then
`add_modif(2, 20, 30)` stores exactly the entry `(10, 30)` at index 2. -/
theorem add_modif_collapses_successive_edits_witness :
    (Modifs.empty (V := ℤ)).lookup 2 = none ∧
    ((Modifs.empty (V := ℤ)).chainEdits 2 [(10, 20), (20, 30)]).countKey 2 = 1 ∧
    ((Modifs.empty (V := ℤ)).chainEdits 2 [(10, 20), (20, 30)]).lookup 2 =
      some (10, 30) :=
  ⟨rfl,
   (add_modif_collapses_successive_edits Modifs.empty 2 10 20 30 [] rfl).1,
   (add_modif_collapses_successive_edits Modifs.empty 2 10 20 30 [] rfl).2⟩

/-! ### Objective — `metabench/common/fitness/objective.py`

`Objective` wraps a full fitness function and an optional partial one (the
source attribute is named `fitness_partial`; it is modelled here by the
field `fitness_part`).  A solution, for the purpose of fitness evaluation,
is a payload plus an optional cached fitness value.  Which evaluator ran is
exposed as an `EvalKind` so that theorems can speak about evaluator
invocation; the source's `__call__` returns `None` and communicates only
through the `solution.fitness` side effect, modelled by returning the
updated solution. -/

/-- Which fitness evaluator a call to `Objective.__call__` invoked. -/
inductive EvalKind where
  | fullEval
  | incrEval
  | noEval
  deriving DecidableEq, Repr

structure OSolution (S V : Type) where
  data : S
  fitness : Option V

structure Objective (S V : Type) where
  fitness : OSolution S V → V
  fitness_part : Option (OSolution S V → Modifs V → V)

namespace Objective

variable {S V : Type}

/-- `Objective._compute_fitness_value` (objective.py lines 52-66):
`if solution.fitness is not None and modifs and self.fitness_partial:` use
the partial evaluator, `else` the full one.  A `modifs` of `None` and an
empty `Modifs` are both falsy in Python. -/
def computeFitnessValue (o : Objective S V) (solution : OSolution S V)
    (modifs : Option (Modifs V)) : V × EvalKind :=
  match solution.fitness, modifs, o.fitness_part with
  | some _, some m, some fp =>
      if m.entries.isEmpty then (o.fitness solution, EvalKind.fullEval)
      else (fp solution m, EvalKind.incrEval)
  | _, _, _ => (o.fitness solution, EvalKind.fullEval)

/-- `Objective.__call__` (objective.py lines 37-50):
`if solution.fitness is None or modifs is not None:` store the value chosen
by `_compute_fitness_value` into `solution.fitness`; otherwise do nothing. -/
def call (o : Objective S V) (solution : OSolution S V)
    (modifs : Option (Modifs V)) : OSolution S V × EvalKind :=
  if solution.fitness.isNone || modifs.isSome then
    let vk := o.computeFitnessValue solution modifs
    (⟨solution.data, some vk.1⟩, vk.2)
  else (solution, EvalKind.noEval)

end Objective

/-- C3: when an objective holds both evaluators, a call invokes the partial
evaluator iff the solution's fitness is already set and the supplied ledger
is present and non-empty; when the fitness is unset the full evaluator is
invoked (whether or not a partial one exists); whenever an evaluator is
invoked its value is stored in the solution's fitness (the call returns
nothing — only the updated solution), and the payload is untouched. -/
theorem objective_call_evaluator_choice {S V : Type} (o : Objective S V)
    (solution : OSolution S V) (modifs : Option (Modifs V)) :
    (o.fitness_part.isSome →
      ((o.call solution modifs).2 = EvalKind.incrEval ↔
        solution.fitness.isSome ∧ ∃ m, modifs = some m ∧ m.entries ≠ [])) ∧
    (solution.fitness = none →
      (o.call solution modifs).2 = EvalKind.fullEval ∧
      (o.call solution modifs).1.fitness = some (o.fitness solution)) ∧
    (∀ m fp, modifs = some m → m.entries ≠ [] → solution.fitness.isSome →
      o.fitness_part = some fp →
      (o.call solution modifs).1.fitness = some (fp solution m)) ∧
    ((o.call solution modifs).2 = EvalKind.fullEval →
      (o.call solution modifs).1.fitness = some (o.fitness solution)) ∧
    (o.call solution modifs).1.data = solution.data := by
  obtain ⟨sd, sf⟩ := solution
  unfold Objective.call Objective.computeFitnessValue
  cases sf with
  | none =>
      cases modifs with
      | none => simp
      | some m =>
          cases hfp : o.fitness_part with
          | none => simp
          | some fp => simp
  | some v =>
      cases modifs with
      | none =>
          cases hfp : o.fitness_part with
          | none => simp
          | some fp => simp
      | some m =>
          cases hfp : o.fitness_part with
          | none => simp [hfp]
          | some fp =>
              by_cases hm : m.entries = []
              · simp [hfp, hm, List.isEmpty_iff]
              · simp [hfp, hm, List.isEmpty_iff]

/-- Witness for C3 at a concrete objective with both evaluators, a cached
fitness, and a non-empty ledger: the partial evaluator runs and its value is
stored. -/
theorem objective_call_evaluator_choice_witness :
    (Objective.call
        ⟨fun _ => (7 : ℤ), some (fun _ _ => 9)⟩
        (⟨0, some 5⟩ : OSolution ℤ ℤ)
        (some ⟨[(0, 1, 2)]⟩)).2 = EvalKind.incrEval ∧
    (Objective.call
        ⟨fun _ => (7 : ℤ), some (fun _ _ => 9)⟩
        (⟨0, some 5⟩ : OSolution ℤ ℤ)
        (some ⟨[(0, 1, 2)]⟩)).1.fitness = some 9 :=
  ⟨(objective_call_evaluator_choice ⟨fun _ => (7 : ℤ), some (fun _ _ => 9)⟩
      ⟨0, some 5⟩ (some ⟨[(0, 1, 2)]⟩)).1 rfl |>.mpr
      ⟨rfl, ⟨[(0, 1, 2)]⟩, rfl, by simp⟩,
   (objective_call_evaluator_choice ⟨fun _ => (7 : ℤ), some (fun _ _ => 9)⟩
      ⟨0, some 5⟩ (some ⟨[(0, 1, 2)]⟩)).2.2.1 ⟨[(0, 1, 2)]⟩ (fun _ _ => 9)
      rfl (by simp) rfl rfl⟩

/-- C10: with a cached fitness and no ledger argument, a call invokes no
evaluator and leaves the solution (fitness included) exactly unchanged,
whether or not a partial evaluator exists. -/
theorem objective_call_cached_no_recompute {S V : Type} (o : Objective S V)
    (solution : OSolution S V) (hset : solution.fitness.isSome) :
    o.call solution none = (solution, EvalKind.noEval) := by
  obtain ⟨sd, sf⟩ := solution
  cases sf with
  | none => simp at hset
  | some v => simp [Objective.call]

/-- Witness for C10: an objective holding both evaluators keeps a cached
fitness of 5 untouched when called without a ledger. -/
theorem objective_call_cached_no_recompute_witness :
    (Option.isSome (some (5 : ℤ)) ∧
      Objective.call ⟨fun _ => (7 : ℤ), some (fun _ _ => 9)⟩
        (⟨0, some 5⟩ : OSolution ℤ ℤ) none = (⟨0, some 5⟩, EvalKind.noEval)) :=
  ⟨rfl, objective_call_cached_no_recompute ⟨fun _ => (7 : ℤ), some (fun _ _ => 9)⟩
      ⟨0, some 5⟩ rfl⟩

/-! ### Boundaries — `metabench/common/representation/boundaries.py`

`Boundaries.__new__` builds a 3-row matrix `[minimums, maximums,
(maximums - minimums) + epsilon]` with `epsilon =
np.finfo(np.float).resolution = 1e-15`, **cast to the requested dtype**
(`type` argument, default `np.int`).  Values are modelled as exact
rationals; the cast to the integer dtype is `numpy`'s truncation toward
zero. -/

/-- The numpy element dtypes accepted by the `Boundaries` constructor. -/
inductive NpDtype where
  | npInt
  | npFloat
  deriving DecidableEq, Repr

/-- `np.finfo(np.float).resolution` = `1e-15`. -/
def npFloatResolution : ℚ := 1 / 10 ^ 15

/-- `numpy` cast of a float to the C integer type: truncation toward zero. -/
def npTruncToInt (q : ℚ) : ℤ :=
  if 0 ≤ q then ⌊q⌋ else -⌊-q⌋

/-- Element cast performed by `np.array(data, type)`. -/
def castDtype : NpDtype → ℚ → ℚ
  | NpDtype.npInt, q => (npTruncToInt q : ℚ)
  | NpDtype.npFloat, q => q

/-- The three rows of a constructed `Boundaries` matrix. -/
structure BoundariesData where
  mins : List ℚ
  maxs : List ℚ
  scale : List ℚ
  deriving DecidableEq, Repr

/-- `Boundaries.__new__` (boundaries.py lines 43-65): reject length
mismatch, reject (listing them) all indexes where `maximums[i] <
minimums[i]`, then build the rows `minimums`, `maximums` and
`(maximums - minimums) + epsilon`, all cast to the requested dtype. -/
def boundariesNew (minimums maximums : List ℚ) (dtype : NpDtype) :
    Except PyErr BoundariesData :=
  if minimums.length ≠ maximums.length then Except.error PyErr.valueError
  else
    let err_indexes := (List.range minimums.length).filter
      (fun i => maximums.getD i 0 < minimums.getD i 0)
    if err_indexes ≠ [] then Except.error PyErr.valueError
    else Except.ok
      { mins := minimums.map (castDtype dtype)
        maxs := maximums.map (castDtype dtype)
        scale := List.zipWith
          (fun mx mn => castDtype dtype (mx - mn + npFloatResolution))
          maximums minimums }

/-- `Boundaries.normalize` (boundaries.py lines 83-97): elementwise division
of the array by the third (scale) row. -/
def boundariesNormalize (b : BoundariesData) (array : List ℚ) : List ℚ :=
  List.zipWith (fun a s => a / s) array b.scale

/-- C4 fails on the code: with the constructor's **default integer dtype**
and `min[0] = max[0] = 0`, construction succeeds but the cast truncates
`0 + 1e-15` to `0`, so the derived scale row is **not** strictly positive
and `normalize` divides by zero at index 0 — contradicting the source's own
comment ("Add epsilon to avoid division per 0 when max == min during
normalization", boundaries.py lines 57-58).  With the float dtype the
epsilon survives, confirming the truncation is what destroys it. -/
theorem boundaries_int_dtype_scale_zero :
    boundariesNew [0] [0] NpDtype.npInt =
      Except.ok ⟨[0], [0], [0]⟩ ∧
    boundariesNew [0] [0] NpDtype.npFloat =
      Except.ok ⟨[0], [0], [1 / 10 ^ 15]⟩ := by
  refine ⟨?_, ?_⟩ <;>
    · simp only [boundariesNew, castDtype, npTruncToInt, npFloatResolution]
      norm_num
      rfl

/-! ### Solution — `metabench/prob/solution.py`

`Solution` subclasses `np.ndarray`: an attribute vector plus an `encoding`
reference and an optional cached `fitness`.  To make aliasing of the
attribute storage expressible, vectors live in an explicit heap of buffers;
a solution holds the id of its buffer and the id of its (shared, immutable)
encoding.  `Solution.copy` (solution.py lines 53-71) calls
`np.ndarray.copy`, which allocates a fresh buffer holding the same values,
keeps the same encoding reference, and carries the fitness over only when
`copy_fitness` is true. -/

structure Heap (α : Type) where
  bufs : List (List α)

/-- The attribute vector stored in buffer `b`. -/
def Heap.read {α : Type} (h : Heap α) (b : Nat) : List α :=
  h.bufs.getD b []

/-- `np.ndarray.copy`: allocate a fresh buffer holding the given values. -/
def Heap.alloc {α : Type} (h : Heap α) (v : List α) : Heap α × Nat :=
  (⟨h.bufs ++ [v]⟩, h.bufs.length)

/-- In-place element assignment `vector[i] = x` on buffer `b`. -/
def Heap.write {α : Type} (h : Heap α) (b i : Nat) (x : α) : Heap α :=
  ⟨h.bufs.set b ((h.bufs.getD b []).set i x)⟩

structure HSolution where
  buf : Nat
  enc : Nat
  fitness : Option ℚ

/-- `Solution.copy` (solution.py lines 53-71): deep-copy the vector into a
fresh buffer, keep the same encoding reference, carry the fitness over iff
`copy_fitness`. -/
def solutionCopy {α : Type} (h : Heap α) (s : HSolution) (copy_fitness : Bool) :
    Heap α × HSolution :=
  let av := h.alloc (h.read s.buf)
  (av.1, ⟨av.2, s.enc, if copy_fitness then s.fitness else none⟩)

/-- C9: `copy` returns a solution whose vector equals the source's but lives
in a distinct buffer (writing through either buffer leaves the other's
contents unchanged), whose encoding is the same reference, and whose fitness
is the source's cached value iff `copy_fitness`; the source's vector is
unmodified by the copy. -/
theorem solution_copy_deep_and_faithful {α : Type} (h : Heap α) (s : HSolution)
    (copy_fitness : Bool) (hvalid : s.buf < h.bufs.length) :
    (solutionCopy h s copy_fitness).1.read (solutionCopy h s copy_fitness).2.buf
        = h.read s.buf ∧
    (solutionCopy h s copy_fitness).2.buf ≠ s.buf ∧
    (solutionCopy h s copy_fitness).2.enc = s.enc ∧
    (solutionCopy h s copy_fitness).2.fitness
        = (if copy_fitness then s.fitness else none) ∧
    (solutionCopy h s copy_fitness).1.read s.buf = h.read s.buf ∧
    (∀ i x, ((solutionCopy h s copy_fitness).1.write
        (solutionCopy h s copy_fitness).2.buf i x).read s.buf
        = (solutionCopy h s copy_fitness).1.read s.buf) ∧
    (∀ i x, ((solutionCopy h s copy_fitness).1.write s.buf i x).read
        (solutionCopy h s copy_fitness).2.buf
        = (solutionCopy h s copy_fitness).1.read
            (solutionCopy h s copy_fitness).2.buf) := by
  have hbufne : h.bufs.length ≠ s.buf := by omega
  have hread_new : (⟨h.bufs ++ [h.read s.buf]⟩ : Heap α).read h.bufs.length
      = h.read s.buf := by
    unfold Heap.read
    rw [List.getD_eq_getElem?_getD, List.getElem?_append_right (le_refl _)]
    simp
  have hread_old : ∀ v : List α, (⟨h.bufs ++ [v]⟩ : Heap α).read s.buf
      = h.read s.buf := by
    intro v
    unfold Heap.read
    rw [List.getD_eq_getElem?_getD, List.getElem?_append_left hvalid,
      List.getD_eq_getElem?_getD]
  have hcopy : solutionCopy h s copy_fitness =
      (⟨h.bufs ++ [h.read s.buf]⟩,
        ⟨h.bufs.length, s.enc, if copy_fitness then s.fitness else none⟩) := rfl
  refine ⟨hread_new, hbufne, rfl, rfl, hread_old _, ?_, ?_⟩
  · intro i x
    rw [hcopy]
    unfold Heap.write Heap.read
    simp only
    rw [List.getD_eq_getElem?_getD, List.getElem?_set_ne hbufne,
      ← List.getD_eq_getElem?_getD]
  · intro i x
    rw [hcopy]
    unfold Heap.write Heap.read
    simp only
    rw [List.getD_eq_getElem?_getD, List.getElem?_set_ne hbufne.symm,
      ← List.getD_eq_getElem?_getD]

/-! ### Binary flip move — `metabench/operators/neighborhood/move_functions.py`

`move_binary_flip` (lines 18-45) copies the solution, then for each chosen
index flips the bit in place and records one Modif (`(1,0)` when the bit
was set, `(0,1)` otherwise; Python's `if neighbor[flip_index]:` is the test
`value ≠ 0`).  The single-candidate mode draws the indices with
`np.random.choice(len(solution), size=step, replace=False)` — a
duplicate-free list of in-range indices; the bounded-enumeration mode
(`neighborhood.py` lines 291-325) runs the identical per-candidate loop
over each shuffled combination from `combinations(range(len(solution)),
step)` — also duplicate-free and in range.  Both modes are therefore
covered by quantifying over an arbitrary duplicate-free list of in-range
indices. -/

/-- One iteration of the flip loop (move_functions.py lines 37-43). -/
def flipStep (acc : List Nat × Modifs Nat) (flip_index : Nat) :
    List Nat × Modifs Nat :=
  if acc.1.getD flip_index 0 ≠ 0 then
    (acc.1.set flip_index 0, acc.2.add_modif flip_index 1 0)
  else
    (acc.1.set flip_index 1, acc.2.add_modif flip_index 0 1)

/-- `move_binary_flip` applied to a chosen duplicate-free list of flip
indices: fold the flip loop over a fresh copy of the solution and an empty
ledger. -/
def move_binary_flip (solution : List Nat) (flip_indexes : List Nat) :
    List Nat × Modifs Nat :=
  flip_indexes.foldl flipStep (solution, Modifs.empty)

theorem getD_set_ne {l : List Nat} {i j : Nat} (x : Nat) (h : i ≠ j) :
    (l.set i x).getD j 0 = l.getD j 0 := by
  rw [List.getD_eq_getElem?_getD, List.getElem?_set_ne h,
    ← List.getD_eq_getElem?_getD]

theorem getD_set_self {l : List Nat} {i : Nat} (x : Nat) (h : i < l.length) :
    (l.set i x).getD i 0 = x := by
  rw [List.getD_eq_getElem?_getD, List.getElem?_set_eq_of_lt x h]
  rfl

theorem flip_fold_invariant :
    ∀ (flips : List Nat) (nb : List Nat) (m : Modifs Nat),
      flips.Nodup → (∀ i ∈ flips, i < nb.length) →
      (∀ i ∈ flips, nb.getD i 0 = 0 ∨ nb.getD i 0 = 1) →
      (∀ i ∈ flips, m.lookup i = none) →
      (flips.foldl flipStep (nb, m)).1.length = nb.length ∧
      (∀ j, j ∉ flips → (flips.foldl flipStep (nb, m)).1.getD j 0 = nb.getD j 0) ∧
      (∀ i ∈ flips, (flips.foldl flipStep (nb, m)).1.getD i 0 = 1 - nb.getD i 0) ∧
      (flips.foldl flipStep (nb, m)).2.entries
        = m.entries ++ flips.map (fun i => (i, nb.getD i 0, 1 - nb.getD i 0)) := by
  intro flips
  induction flips with
  | nil =>
      intro nb m _ _ _ _
      simp
  | cons i rest ih =>
      intro nb m hnd hlt hbin hfresh
      have hi_rest : i ∉ rest := (List.nodup_cons.mp hnd).1
      have hnd' : rest.Nodup := (List.nodup_cons.mp hnd).2
      have hv := hbin i (List.mem_cons_self i rest)
      have hilt := hlt i (List.mem_cons_self i rest)
      -- the state after processing the head index
      have hstep : flipStep (nb, m) i =
          (nb.set i (1 - nb.getD i 0),
            m.add_modif i (nb.getD i 0) (1 - nb.getD i 0)) := by
        have hunf : flipStep (nb, m) i =
            if nb.getD i 0 ≠ 0 then (nb.set i 0, m.add_modif i 1 0)
            else (nb.set i 1, m.add_modif i 0 1) := rfl
        rw [hunf]
        rcases hv with hv | hv <;> rw [hv] <;> norm_num
      have hfold : (i :: rest).foldl flipStep (nb, m) =
          rest.foldl flipStep
            (nb.set i (1 - nb.getD i 0),
              m.add_modif i (nb.getD i 0) (1 - nb.getD i 0)) := by
        rw [List.foldl_cons, hstep]
      set nb' := nb.set i (1 - nb.getD i 0) with hnb'
      set m' := m.add_modif i (nb.getD i 0) (1 - nb.getD i 0) with hm'
      have hgetD_rest : ∀ j ∈ rest, nb'.getD j 0 = nb.getD j 0 := by
        intro j hj
        exact getD_set_ne _ (fun he => hi_rest (he ▸ hj))
      have hlt' : ∀ j ∈ rest, j < nb'.length := by
        intro j hj
        rw [hnb', List.length_set]
        exact hlt j (List.mem_cons_of_mem i hj)
      have hbin' : ∀ j ∈ rest, nb'.getD j 0 = 0 ∨ nb'.getD j 0 = 1 := by
        intro j hj
        rw [hgetD_rest j hj]
        exact hbin j (List.mem_cons_of_mem i hj)
      have hfresh' : ∀ j ∈ rest, m'.lookup j = none := by
        intro j hj
        rw [hm', Modifs.lookup_add_modif_fresh_ne m i j _ _
          (hfresh i (List.mem_cons_self i rest)) (fun he => hi_rest (he ▸ hj))]
        exact hfresh j (List.mem_cons_of_mem i hj)
      obtain ⟨ihlen, ihout, ihin, ihent⟩ := ih nb' m' hnd' hlt' hbin' hfresh'
      refine ⟨?_, ?_, ?_, ?_⟩
      · rw [hfold, ihlen, hnb', List.length_set]
      · intro j hj
        have hjne : j ≠ i := fun he => hj (he ▸ List.mem_cons_self i rest)
        have hjrest : j ∉ rest := fun hr => hj (List.mem_cons_of_mem i hr)
        rw [hfold, ihout j hjrest, hnb', getD_set_ne _ (Ne.symm hjne)]
      · intro j hj
        rcases List.mem_cons.mp hj with hji | hjr
        · subst hji
          rw [hfold, ihout j hi_rest, hnb', getD_set_self _ hilt]
        · rw [hfold, ihin j hjr, hgetD_rest j hjr]
      · rw [hfold, ihent]
        have hm'ent : m'.entries
            = m.entries ++ [(i, nb.getD i 0, 1 - nb.getD i 0)] := by
          rw [hm']
          unfold Modifs.add_modif
          rw [hfresh i (List.mem_cons_self i rest)]
        have hmapeq : rest.map (fun j => (j, nb'.getD j 0, 1 - nb'.getD j 0))
            = rest.map (fun j => (j, nb.getD j 0, 1 - nb.getD j 0)) := by
          apply List.map_congr_left
          intro j hj
          rw [hgetD_rest j hj]
        rw [hm'ent, hmapeq, List.map_cons, List.append_assoc, List.singleton_append]

theorem lookupEntries_map_keys {V : Type} (f : Nat → V × V) :
    ∀ (ks : List Nat), ∀ i ∈ ks,
      lookupEntries (ks.map (fun k => (k, (f k).1, (f k).2))) i = some (f i) := by
  intro ks
  induction ks with
  | nil => intro i hi; cases hi
  | cons k rest ih =>
      intro i hi
      rcases List.mem_cons.mp hi with hk | hr
      · subst hk
        simp [lookupEntries]
      · by_cases hk : k = i
        · subst hk
          simp [lookupEntries]
        · simp only [List.map_cons, lookupEntries, if_neg hk]
          exact ih i hr

/-- C5: on a binary solution, flipping a duplicate-free list of `k` in-range
indices (the single random draw, or any enumerated combination) yields a
neighbor of the same length that differs from the source exactly at the
flipped indices, and a ledger with exactly one entry per flipped index,
`(0,1)` where the source bit was 0 and `(1,0)` where it was 1 — each
after-value the complement of its before-value; all other indices are
unchanged. -/
theorem move_binary_flip_correct (solution flip_indexes : List Nat)
    (hnd : flip_indexes.Nodup)
    (hlt : ∀ i ∈ flip_indexes, i < solution.length)
    (hbin : ∀ v ∈ solution, v = 0 ∨ v = 1) :
    (move_binary_flip solution flip_indexes).1.length = solution.length ∧
    (∀ j, (move_binary_flip solution flip_indexes).1.getD j 0
        ≠ solution.getD j 0 ↔ j ∈ flip_indexes) ∧
    (move_binary_flip solution flip_indexes).2.entries
      = flip_indexes.map
          (fun i => (i, solution.getD i 0, 1 - solution.getD i 0)) ∧
    (move_binary_flip solution flip_indexes).2.entries.length
      = flip_indexes.length ∧
    (∀ i ∈ flip_indexes,
      (move_binary_flip solution flip_indexes).2.lookup i
        = some (solution.getD i 0, 1 - solution.getD i 0)) := by
  have hbinD : ∀ i ∈ flip_indexes,
      solution.getD i 0 = 0 ∨ solution.getD i 0 = 1 := by
    intro i hi
    have h := hlt i hi
    rw [List.getD_eq_getElem?_getD, List.getElem?_eq_getElem h]
    exact hbin _ (List.getElem_mem h)
  obtain ⟨hlen, hout, hin, hent⟩ := flip_fold_invariant flip_indexes solution
    Modifs.empty hnd hlt hbinD (fun i _ => rfl)
  have hmb : move_binary_flip solution flip_indexes
      = flip_indexes.foldl flipStep (solution, Modifs.empty) := rfl
  have hent' : (move_binary_flip solution flip_indexes).2.entries
      = flip_indexes.map
          (fun i => (i, solution.getD i 0, 1 - solution.getD i 0)) := by
    rw [hmb, hent]
    rfl
  refine ⟨by rw [hmb]; exact hlen, ?_, hent', ?_, ?_⟩
  · intro j
    rw [hmb]
    constructor
    · intro hne
      by_contra hj
      exact hne (hout j hj)
    · intro hj
      rw [hin j hj]
      rcases hbinD j hj with hv | hv <;> rw [hv] <;> omega
  · rw [hent', List.length_map]
  · intro i hi
    show lookupEntries (move_binary_flip solution flip_indexes).2.entries i
      = some (solution.getD i 0, 1 - solution.getD i 0)
    rw [hent']
    exact lookupEntries_map_keys
      (fun k => (solution.getD k 0, 1 - solution.getD k 0)) flip_indexes i hi

/-- Witness for C5, the spec's own concrete scenario: flipping index 2 of
`[0, 0, 1, 0, 1]` yields `[0, 0, 0, 0, 1]` with ledger `{2: (1, 0)}`. -/
theorem move_binary_flip_correct_witness :
    ([2] : List Nat).Nodup ∧ (∀ i ∈ ([2] : List Nat), i < 5) ∧
    (∀ v ∈ [0, 1, 1, 0, 1], v = 0 ∨ v = 1) ∧
    (move_binary_flip [0, 0, 1, 0, 1] [2]).1 = [0, 0, 0, 0, 1] ∧
    (move_binary_flip [0, 0, 1, 0, 1] [2]).2.entries = [(2, 1, 0)] ∧
    (∀ j, (move_binary_flip [0, 0, 1, 0, 1] [2]).1.getD j 0
        ≠ ([0, 0, 1, 0, 1] : List Nat).getD j 0 ↔ j ∈ ([2] : List Nat)) :=
  ⟨by decide, by decide, by decide, by decide, by decide,
   (move_binary_flip_correct [0, 0, 1, 0, 1] [2] (by decide) (by decide)
      (by decide)).2.1⟩

/-- Witness for C9 on a one-buffer heap holding `[1, 2]`. -/
theorem solution_copy_deep_and_faithful_witness :
    (0 : Nat) < 1 ∧
    ((solutionCopy (⟨[[(1 : ℚ), 2]]⟩ : Heap ℚ) ⟨0, 5, some 3⟩ true).1.read
        (solutionCopy (⟨[[(1 : ℚ), 2]]⟩ : Heap ℚ) ⟨0, 5, some 3⟩ true).2.buf
      = Heap.read (⟨[[(1 : ℚ), 2]]⟩ : Heap ℚ) 0 ∧
     (solutionCopy (⟨[[(1 : ℚ), 2]]⟩ : Heap ℚ) ⟨0, 5, some 3⟩ true).2.buf ≠ 0) :=
  ⟨Nat.zero_lt_one,
   (solution_copy_deep_and_faithful ⟨[[(1 : ℚ), 2]]⟩ ⟨0, 5, some 3⟩ true
      Nat.zero_lt_one).1,
   (solution_copy_deep_and_faithful ⟨[[(1 : ℚ), 2]]⟩ ⟨0, 5, some 3⟩ true
      Nat.zero_lt_one).2.1⟩

/-! ### Substitution move — `metabench/operators/neighborhood/move_functions.py`

`move_substitution` (lines 77-104) can never return.  For `step >= 1`, the
first loop iteration builds `allowed_values` as a Python **set** (lines
97-98), removes the current value (line 99, a `KeyError` if the value is
outside its bounds), and then calls
`np.random.choice(allowed_values, size=1)` (line 100); `np.random.choice`
requires a 1-D array-like or an int, and a set is converted to a 0-d object
array, so it raises `ValueError` ("a must be 1-dimensional or an int")
before anything else in the iteration runs.  Behind that, the ledger is
bound as `modifs` (line 95) while the loop body (line 102) and the final
`return neighbor, modif` (line 104) reference the undefined name `modif`;
this `NameError` is reached when the loop is empty (`step = 0`), and would
be the next failure at line 102 were the choice call ever fixed. -/

/-- `set(range(min_val(i), max_val(i) + 1))` (move_functions.py lines
97-98): the allowed integers of an attribute, inclusive bounds. -/
def setRange (lo hi : ℤ) : List ℤ :=
  (List.range (hi + 1 - lo).toNat).map (fun (k : Nat) => lo + (k : ℤ))

/-- `allowed_values.remove(solution[i])` (line 99): `set.remove` drops the
element, raising `KeyError` when it is absent. -/
def setRemove (s : List ℤ) (v : ℤ) : Except PyErr (List ℤ) :=
  if v ∈ s then Except.ok (s.filter (fun x => x ≠ v))
  else Except.error PyErr.keyError

/-- `np.random.choice(allowed_values, size=1)` with `allowed_values` a
Python set (line 100): `choice` requires a 1-D array-like or an int; a set
becomes a 0-d object array, so numpy raises
`ValueError: a must be 1-dimensional or an int`, whatever the set holds. -/
def npRandomChoiceSet (s : List ℤ) : Except PyErr ℤ :=
  Except.error PyErr.valueError

/-- Model of `move_substitution` applied to the drawn duplicate-free list of
substitution indices, with the solution's per-index bounds.  The empty-loop
path hits the unbound `modif` at the `return` (line 104); with at least one
index, the first iteration runs lines 97-100 and dies inside
`np.random.choice` (or at the `remove` for an out-of-bounds value) — the
unbound `modif` at line 102 is never reached. -/
def move_substitution (solution mins maxs : List ℤ)
    (substitution_indexes : List Nat) : Except PyErr (List ℤ × Modifs ℤ) :=
  match substitution_indexes with
  | [] =>
      -- line 104: `return neighbor, modif` with `modif` unbound
      Except.error PyErr.nameError
  | i :: _ =>
      -- first iteration, lines 97-99
      match setRemove (setRange (mins.getD i 0) (maxs.getD i 0))
          (solution.getD i 0) with
      | Except.error e => Except.error e
      | Except.ok allowed_values =>
          -- line 100
          match npRandomChoiceSet allowed_values with
          | Except.error e => Except.error e
          | Except.ok _ =>
              -- line 102: `modif.add_modif(...)` with `modif` unbound
              Except.error PyErr.nameError

theorem mem_setRange {lo hi v : ℤ} (h1 : lo ≤ v) (h2 : v ≤ hi) :
    v ∈ setRange lo hi := by
  unfold setRange
  rw [List.mem_map]
  refine ⟨(v - lo).toNat, ?_, ?_⟩
  · rw [List.mem_range]
    omega
  · omega

/-- C6 fails on the code: `move_substitution` never succeeds.  On the
claim's whole scope (`k >= 1`, each substituted value within its bounds)
the first iteration raises `ValueError` from `np.random.choice` on the
`allowed_values` set; the degenerate empty-index call raises `NameError`
(the ledger is bound as `modifs`, the code uses `modif`).  No call returns
a neighbor and a ledger. -/
theorem move_substitution_never_succeeds :
    (∀ (solution mins maxs : List ℤ) (i : Nat) (rest : List Nat),
      mins.getD i 0 ≤ solution.getD i 0 → solution.getD i 0 ≤ maxs.getD i 0 →
      move_substitution solution mins maxs (i :: rest)
        = Except.error PyErr.valueError) ∧
    (∀ solution mins maxs : List ℤ,
      move_substitution solution mins maxs []
        = Except.error PyErr.nameError) := by
  constructor
  · intro solution mins maxs i rest h1 h2
    have hmem : solution.getD i 0
        ∈ setRange (mins.getD i 0) (maxs.getD i 0) := mem_setRange h1 h2
    simp only [move_substitution, setRemove, if_pos hmem, npRandomChoiceSet]
  · intro solution mins maxs
    rfl

/-- Witness for C6 at the one-attribute discrete solution `[0]` with bounds
`0..1` and one substitution: the call raises `ValueError`. -/
theorem move_substitution_never_succeeds_witness :
    (0 : ℤ) ≤ 0 ∧ (0 : ℤ) ≤ 1 ∧
    move_substitution [0] [0] [1] [0] = Except.error PyErr.valueError :=
  ⟨le_refl 0, by norm_num,
   move_substitution_never_succeeds.1 [0] [0] [1] 0 []
     (by norm_num) (by norm_num)⟩

/-! ### NeighborhoodOperator — `metabench/operators/neighborhood/neighborhood_operator.py`

`NeighborhoodOperator.__call__` (lines 72-95) converts the step once, then
for `max_nb_neighbors` rounds repeatedly invokes the move and keeps the
result only if its ledger is empty (`not modif`) or not already in the
Python set `seen_modifs`.  `Modifs` subclasses `OrderedDict`, and `dict`
(hence `OrderedDict`) sets `__hash__ = None`, so **both** `modif not in
seen_modifs` and `seen_modifs.add(modif)` raise
`TypeError: unhashable type`.  The move is modelled as an oracle giving the
result of its `n`-th invocation (the randomness source); the converted step
is already baked into the oracle.  The `while` loop is given explicit fuel
counting move invocations; `none` means the loop was still running when the
fuel ran out. -/

/-- `modif not in seen_modifs` (line 92): hashing a `Modifs` raises. -/
def pySetContainsModifs (seen : List (Modifs Nat)) (m : Modifs Nat) :
    Except PyErr Bool :=
  Except.error PyErr.typeError

/-- `seen_modifs.add(modif)` (line 93): hashing a `Modifs` raises. -/
def pySetAddModifs (seen : List (Modifs Nat)) (m : Modifs Nat) :
    Except PyErr (List (Modifs Nat)) :=
  Except.error PyErr.typeError

/-- The generator loop of `__call__` (lines 87-95), as written.  `remaining`
counts the outer `for` rounds still to produce, `fuel` bounds the number of
move invocations, `callIdx` feeds the move oracle, `seen` is the
`seen_modifs` set and `acc` the neighbors yielded so far (in reverse). -/
def operatorCall (move : Nat → List Nat × Modifs Nat) :
    Nat → Nat → Nat → List (Modifs Nat) → List (List Nat × Modifs Nat) →
    Option (Except PyErr (List (List Nat × Modifs Nat)))
  | 0, _, _, _, acc => some (Except.ok acc.reverse)
  | _ + 1, 0, _, _, _ => none
  | remaining + 1, fuel + 1, callIdx, seen, acc =>
      let nm := move callIdx
      if nm.2.entries.isEmpty then
        -- `not modif` is truthy: short-circuit to `seen_modifs.add(modif)`,
        -- which raises TypeError (unhashable Modifs)
        match pySetAddModifs seen nm.2 with
        | Except.error e => some (Except.error e)
        | Except.ok seen' =>
            operatorCall move remaining fuel (callIdx + 1) seen'
              (nm :: acc)
      else
        -- `modif not in seen_modifs` raises TypeError (unhashable Modifs)
        match pySetContainsModifs seen nm.2 with
        | Except.error e => some (Except.error e)
        | Except.ok true =>
            operatorCall move (remaining + 1) fuel (callIdx + 1) seen acc
        | Except.ok false =>
            match pySetAddModifs seen nm.2 with
            | Except.error e => some (Except.error e)
            | Except.ok seen' =>
                operatorCall move remaining fuel (callIdx + 1) seen'
                  (nm :: acc)

/-- A `NeighborhoodOperator(move, move_range, max_nb_neighbors)` call,
started from an empty seen-set. -/
def neighborhoodOperatorCall (move : Nat → List Nat × Modifs Nat)
    (max_nb_neighbors fuel : Nat) :
    Option (Except PyErr (List (List Nat × Modifs Nat))) :=
  operatorCall move max_nb_neighbors fuel 0 [] []

/-- The move oracle of a flip-1-bit move on the binary solution `[0, 1]`
that always flips index 0 (one admissible random draw). -/
def flipFirstOracle : Nat → List Nat × Modifs Nat :=
  fun _ => ([1, 1], ⟨[(0, 0, 1)]⟩)

/-- C2 fails on the code: the dedup machinery can never run.  A
`NeighborhoodOperator` with cap 1 over the binary solution `[0, 1]` raises
`TypeError` at the very first `modif not in seen_modifs` membership test
(`Modifs`, an `OrderedDict` subclass, is unhashable) instead of yielding a
deduplicated neighbor — contradicting the class's own docstring example,
which shows five neighbors being yielded. -/
theorem neighborhood_operator_call_type_error :
    neighborhoodOperatorCall flipFirstOracle 1 3
      = some (Except.error PyErr.typeError) := rfl

/-- The intended semantics of the same loop, differing from `operatorCall`
in exactly one respect: the seen-set works, with membership decided by
ledger content (what `dict` equality gives, and what §4.7 of the spec
describes as "content-identical" deduplication).  Used to settle what the
loop would do about cap/exhaustion had `Modifs` been hashable. -/
def operatorCallDedup (move : Nat → List Nat × Modifs Nat) :
    Nat → Nat → Nat → List (Modifs Nat) → List (List Nat × Modifs Nat) →
    Option (List (List Nat × Modifs Nat))
  | 0, _, _, _, acc => some acc.reverse
  | _ + 1, 0, _, _, _ => none
  | remaining + 1, fuel + 1, callIdx, seen, acc =>
      let nm := move callIdx
      if nm.2.entries.isEmpty ∨ nm.2 ∉ seen then
        operatorCallDedup move remaining fuel (callIdx + 1) (nm.2 :: seen)
          (nm :: acc)
      else
        operatorCallDedup move (remaining + 1) fuel (callIdx + 1) seen acc

/-- The move oracle of a flip-1-bit move on the one-bit binary solution
`[1]`: every invocation returns the unique possible neighbor `[0]` with the
unique possible ledger `{0: (1, 0)}` — a candidate space of exactly one
distinct ledger. -/
def flipOnlyBitOracle : Nat → List Nat × Modifs Nat :=
  fun _ => ([0], ⟨[(0, 1, 0)]⟩)

theorem operatorCallDedup_stuck (move : Nat → List Nat × Modifs Nat)
    (m0 : Modifs Nat) (hmove : ∀ k, (move k).2 = m0)
    (hne : m0.entries ≠ []) :
    ∀ (fuel remaining callIdx : Nat) (seen : List (Modifs Nat))
      (acc : List (List Nat × Modifs Nat)), m0 ∈ seen →
      operatorCallDedup move (remaining + 1) fuel callIdx seen acc = none := by
  intro fuel
  induction fuel with
  | zero => intro remaining callIdx seen acc _; rfl
  | succ f ih =>
      intro remaining callIdx seen acc hseen
      have hcond : ¬ ((move callIdx).2.entries.isEmpty
          ∨ (move callIdx).2 ∉ seen) := by
        rw [hmove callIdx]
        simp [List.isEmpty_iff, hne, hseen]
      rw [operatorCallDedup, if_neg hcond]
      exact ih remaining (callIdx + 1) seen acc hseen

/-- C8 (amended): as written, any call that draws at least one neighbor
raises `TypeError` before yielding anything (first conjunct, at any cap,
fuel and state — `Modifs` is unhashable).  And even under the intended
content-keyed deduplication, the loop has no exhaustion detection: with cap
2 over the one-bit solution `[1]` (exactly one distinct candidate ledger),
the retry loop never terminates — it spins rejecting the already-seen
ledger for every amount of fuel (second conjunct).  The loop stops only via
the cap; it does not stop when the candidate space is exhausted. -/
theorem neighborhood_operator_no_exhaustion_stop :
    (∀ (move : Nat → List Nat × Modifs Nat) (remaining fuel callIdx : Nat)
      (seen : List (Modifs Nat)) (acc : List (List Nat × Modifs Nat)),
      operatorCall move (remaining + 1) (fuel + 1) callIdx seen acc
        = some (Except.error PyErr.typeError)) ∧
    (∀ fuel : Nat,
      operatorCallDedup flipOnlyBitOracle 2 fuel 0 [] [] = none) := by
  constructor
  · intro move remaining fuel callIdx seen acc
    rw [operatorCall]
    by_cases hm : (move callIdx).2.entries.isEmpty <;>
      simp [hm, pySetAddModifs, pySetContainsModifs]
  · intro fuel
    cases fuel with
    | zero => rfl
    | succ f =>
        have hstep : operatorCallDedup flipOnlyBitOracle 2 (f + 1) 0 [] []
            = operatorCallDedup flipOnlyBitOracle 1 f 1
                [⟨[(0, 1, 0)]⟩] [([0], ⟨[(0, 1, 0)]⟩)] := by
          rw [operatorCallDedup]
          norm_num [flipOnlyBitOracle]
        rw [hstep]
        exact operatorCallDedup_stuck flipOnlyBitOracle ⟨[(0, 1, 0)]⟩
          (fun _ => rfl) (by simp) f 0 1 _ _ (by simp)

/-- Counterexample to C8 as stated: with cap 2 — strictly greater than the
single distinct neighbor of the one-bit solution `[1]` — the call does not
return its neighbors and stop on cap or exhaustion; it raises `TypeError`
on the first dedup check. -/
theorem neighborhood_operator_call_counterexample :
    neighborhoodOperatorCall flipOnlyBitOracle 2 6
      = some (Except.error PyErr.typeError) := rfl


/-! ### MoveRange — `metabench/operators/neighborhood/move_range.py`

`_check_step` (lines 41-58) raises `ValueError` whenever `step > 1.0` or
`step < 0.0`; the check is folded into each `convert`.  (The
`isinstance(step, float)` `TypeError` concerns Python's value
representation and has no counterpart on a numeric model.)  The linear and
floor arithmetic of the continuous-linear and discrete-linear variants is
modelled over `ℚ`; the logarithmic variants compute `np.log10` and
`10 ** _`, modelled over `ℝ` with `Real.logb` and real exponentiation.
`np.round` rounds halves to even.  In the discrete variants the source's
local `nb_values = high - low + 1` is inlined. -/

/-- `ContinuousMoveRange.convert` (move_range.py lines 105-108):
`low + (high - low) * step`. -/
def continuousMoveRangeConvert (low high : ℚ) (step : ℚ) : Except PyErr ℚ :=
  if 1 < step ∨ step < 0 then Except.error PyErr.valueError
  else Except.ok (low + (high - low) * step)

/-- `ContinuousLogMoveRange.convert` (move_range.py lines 128-134):
`10 ** (log10(low) + (log10(high) - log10(low)) * step)`. -/
noncomputable def continuousLogMoveRangeConvert (low high : ℝ) (step : ℝ) :
    Except PyErr ℝ :=
  if 1 < step ∨ step < 0 then Except.error PyErr.valueError
  else Except.ok ((10 : ℝ) ^
    (Real.logb 10 low + (Real.logb 10 high - Real.logb 10 low) * step))

/-- `self.values = [x for x in range(low, high + 1)]`
(move_range.py line 178). -/
def discreteMoveRangeValues (low high : ℤ) : List ℤ :=
  (List.range (high + 1 - low).toNat).map (fun (k : Nat) => low + (k : ℤ))

/-- `DiscreteMoveRange.convert` (move_range.py lines 181-190):
`index = min(floor(nb_values * step), nb_values - 1)`, then index into
`values` (the index is provably non-negative, so Python's negative-index
wrap-around never engages). -/
def discreteMoveRangeConvert (low high : ℤ) (step : ℚ) : Except PyErr ℤ :=
  if 1 < step ∨ step < 0 then Except.error PyErr.valueError
  else Except.ok ((discreteMoveRangeValues low high).getD
    (min ⌊((high - low + 1 : ℤ) : ℚ) * step⌋ (high - low + 1 - 1)).toNat 0)

/-- `np.round`: round half to even. -/
noncomputable def npRound (x : ℝ) : ℤ :=
  if Int.fract x = 1 / 2 then (if 2 ∣ ⌊x⌋ then ⌊x⌋ else ⌊x⌋ + 1)
  else round x

/-- `DiscreteLogMoveRange.convert` (move_range.py lines 210-215):
`index = round(10 ** (log10(nb_values) * step)) - 1`, then index into
`values`. -/
noncomputable def discreteLogMoveRangeConvert (low high : ℤ) (step : ℝ) :
    Except PyErr ℤ :=
  if 1 < step ∨ step < 0 then Except.error PyErr.valueError
  else Except.ok ((discreteMoveRangeValues low high).getD
    (npRound ((10 : ℝ) ^ (Real.logb 10 ((high - low + 1 : ℤ) : ℝ) * step))
      - 1).toNat 0)

theorem npRound_intCast (n : ℤ) : npRound (n : ℝ) = n := by
  unfold npRound
  rw [Int.fract_intCast]
  norm_num [round_intCast]

theorem npRound_le (x : ℝ) : (npRound x : ℝ) ≤ x + 1 / 2 := by
  unfold npRound
  by_cases hf : Int.fract x = 1 / 2
  · have hx : x = ⌊x⌋ + 1 / 2 := by
      have := Int.fract_add_floor x
      rw [hf] at this
      linarith
    by_cases h2 : 2 ∣ ⌊x⌋ <;> simp [hf, h2] <;> push_cast <;> linarith
  · rw [if_neg hf, round_eq]
    exact_mod_cast Int.floor_le (x + 1 / 2)

theorem le_npRound (x : ℝ) : x - 1 / 2 ≤ (npRound x : ℝ) := by
  unfold npRound
  by_cases hf : Int.fract x = 1 / 2
  · have hx : x = ⌊x⌋ + 1 / 2 := by
      have := Int.fract_add_floor x
      rw [hf] at this
      linarith
    by_cases h2 : 2 ∣ ⌊x⌋ <;> simp [hf, h2] <;> push_cast <;> linarith
  · rw [if_neg hf, round_eq]
    have hfl : x + 1 / 2 - 1 < (⌊x + 1 / 2⌋ : ℝ) := Int.sub_one_lt_floor (x + 1 / 2)
    linarith

theorem npRound_mono {x y : ℝ} (h : x ≤ y) : npRound x ≤ npRound y := by
  by_contra hlt
  push_neg at hlt
  have h1 : npRound y + 1 ≤ npRound x := hlt
  have h2 : (npRound y : ℝ) + 1 ≤ (npRound x : ℝ) := by exact_mod_cast h1
  have h3 := le_npRound y
  have h4 := npRound_le x
  have hyx : y ≤ x := by linarith
  have hxy : x = y := le_antisymm h hyx
  rw [hxy] at hlt
  exact absurd hlt (lt_irrefl _)

theorem discreteMoveRangeValues_getD (low high : ℤ) (k : ℕ)
    (hk : (k : ℤ) < high + 1 - low) :
    (discreteMoveRangeValues low high).getD k 0 = low + k := by
  unfold discreteMoveRangeValues
  have hk' : k < (high + 1 - low).toNat := by omega
  rw [List.getD_eq_getElem?_getD, List.getElem?_map, List.getElem?_range hk']
  rfl

/-- Normal form of the discrete-linear conversion on a valid step. -/
theorem discreteMoveRangeConvert_eq (low high : ℤ) (hd : low ≤ high)
    (t : ℚ) (h0 : 0 ≤ t) (h1 : t ≤ 1) :
    discreteMoveRangeConvert low high t
      = Except.ok (low + min ⌊((high - low + 1 : ℤ) : ℚ) * t⌋ (high - low)) := by
  unfold discreteMoveRangeConvert
  rw [if_neg (by push_neg; exact ⟨h1, h0⟩)]
  have hidx0 : 0 ≤ min ⌊((high - low + 1 : ℤ) : ℚ) * t⌋ (high - low + 1 - 1) := by
    apply le_min
    · apply Int.floor_nonneg.mpr
      apply mul_nonneg _ h0
      push_cast
      exact_mod_cast (by omega : (0 : ℤ) ≤ high - low + 1)
    · omega
  have hmr := min_le_right ⌊((high - low + 1 : ℤ) : ℚ) * t⌋ (high - low + 1 - 1)
  have hcast : ((min ⌊((high - low + 1 : ℤ) : ℚ) * t⌋
      (high - low + 1 - 1)).toNat : ℤ)
      = min ⌊((high - low + 1 : ℤ) : ℚ) * t⌋ (high - low + 1 - 1) :=
    Int.toNat_of_nonneg hidx0
  rw [discreteMoveRangeValues_getD low high _
    (by rw [hcast]; exact lt_of_le_of_lt hmr (by omega))]
  rw [hcast]
  congr 2
  omega

/-- Normal form of the discrete-log conversion on a valid step, together
with the bounds `1 ≤ round(...) ≤ nb_values` on the rounded power. -/
theorem discreteLogMoveRangeConvert_eq (low high : ℤ) (hd : low ≤ high)
    (t : ℝ) (h0 : 0 ≤ t) (h1 : t ≤ 1) :
    discreteLogMoveRangeConvert low high t
      = Except.ok (low +
          (npRound ((10 : ℝ) ^ (Real.logb 10 ((high - low + 1 : ℤ) : ℝ) * t))
            - 1)) ∧
    1 ≤ npRound ((10 : ℝ) ^ (Real.logb 10 ((high - low + 1 : ℤ) : ℝ) * t)) ∧
    npRound ((10 : ℝ) ^ (Real.logb 10 ((high - low + 1 : ℤ) : ℝ) * t))
      ≤ high - low + 1 := by
  have hnb1 : (1 : ℝ) ≤ ((high - low + 1 : ℤ) : ℝ) := by
    have : (1 : ℤ) ≤ high - low + 1 := by omega
    exact_mod_cast this
  have hlogb0 : 0 ≤ Real.logb 10 ((high - low + 1 : ℤ) : ℝ) :=
    Real.logb_nonneg (by norm_num) hnb1
  have hE0 : 0 ≤ Real.logb 10 ((high - low + 1 : ℤ) : ℝ) * t :=
    mul_nonneg hlogb0 h0
  have hE1 : Real.logb 10 ((high - low + 1 : ℤ) : ℝ) * t
      ≤ Real.logb 10 ((high - low + 1 : ℤ) : ℝ) := by
    nlinarith
  have hP1 : (1 : ℝ) ≤ (10 : ℝ) ^ (Real.logb 10 ((high - low + 1 : ℤ) : ℝ) * t) := by
    have := (Real.rpow_le_rpow_left_iff (by norm_num : (1 : ℝ) < 10)).mpr hE0
    rwa [Real.rpow_zero] at this
  have hPn : (10 : ℝ) ^ (Real.logb 10 ((high - low + 1 : ℤ) : ℝ) * t)
      ≤ ((high - low + 1 : ℤ) : ℝ) := by
    have := (Real.rpow_le_rpow_left_iff (by norm_num : (1 : ℝ) < 10)).mpr hE1
    rwa [Real.rpow_logb (by norm_num) (by norm_num) (by linarith)] at this
  have hr1 : 1 ≤ npRound ((10 : ℝ) ^ (Real.logb 10 ((high - low + 1 : ℤ) : ℝ) * t)) := by
    have := npRound_mono hP1
    rwa [show ((1 : ℝ)) = ((1 : ℤ) : ℝ) by norm_num, npRound_intCast] at this
  have hrn : npRound ((10 : ℝ) ^ (Real.logb 10 ((high - low + 1 : ℤ) : ℝ) * t))
      ≤ high - low + 1 := by
    have := npRound_mono hPn
    rwa [npRound_intCast] at this
  refine ⟨?_, hr1, hrn⟩
  unfold discreteLogMoveRangeConvert
  rw [if_neg (by push_neg; exact ⟨h1, h0⟩)]
  have hcast : (((npRound ((10 : ℝ) ^ (Real.logb 10 ((high - low + 1 : ℤ) : ℝ) * t)) - 1).toNat : ℤ))
      = npRound ((10 : ℝ) ^ (Real.logb 10 ((high - low + 1 : ℤ) : ℝ) * t)) - 1 :=
    Int.toNat_of_nonneg (by omega)
  rw [discreteMoveRangeValues_getD low high _ (by rw [hcast]; omega)]
  rw [hcast]

theorem continuousMoveRangeConvert_ok {low high t v : ℚ}
    (h : continuousMoveRangeConvert low high t = Except.ok v) :
    0 ≤ t ∧ t ≤ 1 ∧ v = low + (high - low) * t := by
  unfold continuousMoveRangeConvert at h
  split_ifs at h with hcond
  push_neg at hcond
  injection h with h
  exact ⟨hcond.2, hcond.1, h.symm⟩

theorem continuousLogMoveRangeConvert_ok {low high t v : ℝ}
    (h : continuousLogMoveRangeConvert low high t = Except.ok v) :
    0 ≤ t ∧ t ≤ 1 ∧ v = (10 : ℝ) ^
      (Real.logb 10 low + (Real.logb 10 high - Real.logb 10 low) * t) := by
  unfold continuousLogMoveRangeConvert at h
  split_ifs at h with hcond
  push_neg at hcond
  injection h with h
  exact ⟨hcond.2, hcond.1, h.symm⟩

theorem discreteMoveRangeConvert_ok {low high : ℤ} {t : ℚ} {v : ℤ}
    (h : discreteMoveRangeConvert low high t = Except.ok v) : 0 ≤ t ∧ t ≤ 1 := by
  unfold discreteMoveRangeConvert at h
  split_ifs at h with hcond
  push_neg at hcond
  exact ⟨hcond.2, hcond.1⟩

theorem discreteLogMoveRangeConvert_ok {low high : ℤ} {t : ℝ} {v : ℤ}
    (h : discreteLogMoveRangeConvert low high t = Except.ok v) : 0 ≤ t ∧ t ≤ 1 := by
  unfold discreteLogMoveRangeConvert at h
  split_ifs at h with hcond
  push_neg at hcond
  exact ⟨hcond.2, hcond.1⟩

/-- C7: for every variant built with valid bounds (`low ≤ high`, and `0 <
low` for the continuous-log variant whose formula takes `log10(low)`),
`convert(0.0) = low`, `convert(1.0) = high`, conversion is monotonically
non-decreasing over the accepted steps `t ∈ [0, 1]`, and the discrete
variants always return an integer in `[low, high]`. -/
theorem move_range_convert_contract
    (lowc highc : ℚ) (hc : lowc ≤ highc)
    (lowl highl : ℝ) (hl0 : 0 < lowl) (hl : lowl ≤ highl)
    (lowd highd : ℤ) (hd : lowd ≤ highd)
    (lowe highe : ℤ) (he : lowe ≤ highe) :
    (continuousMoveRangeConvert lowc highc 0 = Except.ok lowc ∧
     continuousMoveRangeConvert lowc highc 1 = Except.ok highc ∧
     (∀ t₁ t₂ v₁ v₂, t₁ ≤ t₂ →
       continuousMoveRangeConvert lowc highc t₁ = Except.ok v₁ →
       continuousMoveRangeConvert lowc highc t₂ = Except.ok v₂ → v₁ ≤ v₂)) ∧
    (continuousLogMoveRangeConvert lowl highl 0 = Except.ok lowl ∧
     continuousLogMoveRangeConvert lowl highl 1 = Except.ok highl ∧
     (∀ t₁ t₂ v₁ v₂, t₁ ≤ t₂ →
       continuousLogMoveRangeConvert lowl highl t₁ = Except.ok v₁ →
       continuousLogMoveRangeConvert lowl highl t₂ = Except.ok v₂ → v₁ ≤ v₂)) ∧
    (discreteMoveRangeConvert lowd highd 0 = Except.ok lowd ∧
     discreteMoveRangeConvert lowd highd 1 = Except.ok highd ∧
     (∀ t₁ t₂ v₁ v₂, t₁ ≤ t₂ →
       discreteMoveRangeConvert lowd highd t₁ = Except.ok v₁ →
       discreteMoveRangeConvert lowd highd t₂ = Except.ok v₂ → v₁ ≤ v₂) ∧
     (∀ t v, discreteMoveRangeConvert lowd highd t = Except.ok v →
       lowd ≤ v ∧ v ≤ highd)) ∧
    (discreteLogMoveRangeConvert lowe highe 0 = Except.ok lowe ∧
     discreteLogMoveRangeConvert lowe highe 1 = Except.ok highe ∧
     (∀ t₁ t₂ v₁ v₂, t₁ ≤ t₂ →
       discreteLogMoveRangeConvert lowe highe t₁ = Except.ok v₁ →
       discreteLogMoveRangeConvert lowe highe t₂ = Except.ok v₂ → v₁ ≤ v₂) ∧
     (∀ t v, discreteLogMoveRangeConvert lowe highe t = Except.ok v →
       lowe ≤ v ∧ v ≤ highe)) := by
  have hhighl0 : (0 : ℝ) < highl := lt_of_lt_of_le hl0 hl
  refine ⟨⟨?_, ?_, ?_⟩, ⟨?_, ?_, ?_⟩, ⟨?_, ?_, ?_, ?_⟩, ⟨?_, ?_, ?_, ?_⟩⟩
  -- continuous linear, convert 0
  · unfold continuousMoveRangeConvert
    rw [if_neg (by norm_num)]
    norm_num
  -- continuous linear, convert 1
  · unfold continuousMoveRangeConvert
    rw [if_neg (by norm_num)]
    congr 1
    ring
  -- continuous linear, monotone
  · intro t₁ t₂ v₁ v₂ h12 h1 h2
    obtain ⟨_, _, rfl⟩ := continuousMoveRangeConvert_ok h1
    obtain ⟨_, _, rfl⟩ := continuousMoveRangeConvert_ok h2
    nlinarith
  -- continuous log, convert 0
  · unfold continuousLogMoveRangeConvert
    rw [if_neg (by norm_num)]
    congr 1
    rw [show Real.logb 10 lowl + (Real.logb 10 highl - Real.logb 10 lowl) * 0
      = Real.logb 10 lowl by ring]
    exact Real.rpow_logb (by norm_num) (by norm_num) hl0
  -- continuous log, convert 1
  · unfold continuousLogMoveRangeConvert
    rw [if_neg (by norm_num)]
    congr 1
    rw [show Real.logb 10 lowl + (Real.logb 10 highl - Real.logb 10 lowl) * 1
      = Real.logb 10 highl by ring]
    exact Real.rpow_logb (by norm_num) (by norm_num) hhighl0
  -- continuous log, monotone
  · intro t₁ t₂ v₁ v₂ h12 h1 h2
    obtain ⟨_, _, rfl⟩ := continuousLogMoveRangeConvert_ok h1
    obtain ⟨_, _, rfl⟩ := continuousLogMoveRangeConvert_ok h2
    apply (Real.rpow_le_rpow_left_iff (by norm_num : (1 : ℝ) < 10)).mpr
    have hlogle : Real.logb 10 lowl ≤ Real.logb 10 highl :=
      Real.logb_le_logb_of_le (by norm_num) hl0 hl
    nlinarith
  -- discrete linear, convert 0
  · rw [discreteMoveRangeConvert_eq lowd highd hd 0 le_rfl zero_le_one]
    have hfl : ⌊((highd - lowd + 1 : ℤ) : ℚ) * 0⌋ = 0 := by norm_num
    rw [hfl]
    congr 1
    omega
  -- discrete linear, convert 1
  · rw [discreteMoveRangeConvert_eq lowd highd hd 1 zero_le_one le_rfl]
    have hfl : ⌊((highd - lowd + 1 : ℤ) : ℚ) * 1⌋ = highd - lowd + 1 := by
      rw [mul_one, Int.floor_intCast]
    rw [hfl]
    congr 1
    omega
  -- discrete linear, monotone
  · intro t₁ t₂ v₁ v₂ h12 h1 h2
    obtain ⟨h10, h11⟩ := discreteMoveRangeConvert_ok h1
    obtain ⟨h20, h21⟩ := discreteMoveRangeConvert_ok h2
    rw [discreteMoveRangeConvert_eq lowd highd hd t₁ h10 h11] at h1
    rw [discreteMoveRangeConvert_eq lowd highd hd t₂ h20 h21] at h2
    injection h1 with h1
    injection h2 with h2
    have hfl : ⌊((highd - lowd + 1 : ℤ) : ℚ) * t₁⌋
        ≤ ⌊((highd - lowd + 1 : ℤ) : ℚ) * t₂⌋ := by
      apply Int.floor_mono
      have : (0 : ℚ) ≤ ((highd - lowd + 1 : ℤ) : ℚ) := by
        exact_mod_cast (by omega : (0 : ℤ) ≤ highd - lowd + 1)
      nlinarith
    omega
  -- discrete linear, range
  · intro t v hv
    obtain ⟨h0, h1⟩ := discreteMoveRangeConvert_ok hv
    rw [discreteMoveRangeConvert_eq lowd highd hd t h0 h1] at hv
    injection hv with hv
    have hfl : 0 ≤ ⌊((highd - lowd + 1 : ℤ) : ℚ) * t⌋ := by
      apply Int.floor_nonneg.mpr
      apply mul_nonneg _ h0
      exact_mod_cast (by omega : (0 : ℤ) ≤ highd - lowd + 1)
    omega
  -- discrete log, convert 0
  · obtain ⟨heq, hr1, hrn⟩ :=
      discreteLogMoveRangeConvert_eq lowe highe he 0 le_rfl zero_le_one
    rw [heq]
    have hnp : npRound ((10 : ℝ) ^
        (Real.logb 10 ((highe - lowe + 1 : ℤ) : ℝ) * 0)) = 1 := by
      rw [mul_zero, Real.rpow_zero,
        show ((1 : ℝ)) = ((1 : ℤ) : ℝ) by norm_num, npRound_intCast]
    rw [hnp]
    congr 1
    omega
  -- discrete log, convert 1
  · obtain ⟨heq, hr1, hrn⟩ :=
      discreteLogMoveRangeConvert_eq lowe highe he 1 zero_le_one le_rfl
    rw [heq]
    have hnb0 : (0 : ℝ) < ((highe - lowe + 1 : ℤ) : ℝ) := by
      exact_mod_cast (by omega : (0 : ℤ) < highe - lowe + 1)
    have hnp : npRound ((10 : ℝ) ^
        (Real.logb 10 ((highe - lowe + 1 : ℤ) : ℝ) * 1)) = highe - lowe + 1 := by
      rw [mul_one, Real.rpow_logb (by norm_num) (by norm_num) hnb0,
        npRound_intCast]
    rw [hnp]
    congr 1
    omega
  -- discrete log, monotone
  · intro t₁ t₂ v₁ v₂ h12 h1 h2
    obtain ⟨h10, h11⟩ := discreteLogMoveRangeConvert_ok h1
    obtain ⟨h20, h21⟩ := discreteLogMoveRangeConvert_ok h2
    obtain ⟨heq1, _, _⟩ := discreteLogMoveRangeConvert_eq lowe highe he t₁ h10 h11
    obtain ⟨heq2, _, _⟩ := discreteLogMoveRangeConvert_eq lowe highe he t₂ h20 h21
    rw [heq1] at h1
    rw [heq2] at h2
    injection h1 with h1
    injection h2 with h2
    have hnb1 : (1 : ℝ) ≤ ((highe - lowe + 1 : ℤ) : ℝ) := by
      exact_mod_cast (by omega : (1 : ℤ) ≤ highe - lowe + 1)
    have hlogb0 : 0 ≤ Real.logb 10 ((highe - lowe + 1 : ℤ) : ℝ) :=
      Real.logb_nonneg (by norm_num) hnb1
    have hEmono : Real.logb 10 ((highe - lowe + 1 : ℤ) : ℝ) * t₁
        ≤ Real.logb 10 ((highe - lowe + 1 : ℤ) : ℝ) * t₂ :=
      mul_le_mul_of_nonneg_left h12 hlogb0
    have hPmono := (Real.rpow_le_rpow_left_iff
      (by norm_num : (1 : ℝ) < 10)).mpr hEmono
    have hround := npRound_mono hPmono
    omega
  -- discrete log, range
  · intro t v hv
    obtain ⟨h0, h1⟩ := discreteLogMoveRangeConvert_ok hv
    obtain ⟨heq, hr1, hrn⟩ := discreteLogMoveRangeConvert_eq lowe highe he t h0 h1
    rw [heq] at hv
    injection hv with hv
    omega

/-- Witness for C7: endpoint equalities of all four variants at concrete
bounds — `ContinuousMoveRange(0.0, 1.0)`, `ContinuousLogMoveRange(1.0,
10.0)`, `DiscreteMoveRange(1, 3)` and `DiscreteLogMoveRange(0, 10)` (the
latter two are the source docstring examples). -/
theorem move_range_convert_contract_witness :
    continuousMoveRangeConvert 0 1 0 = Except.ok 0 ∧
    continuousMoveRangeConvert 0 1 1 = Except.ok 1 ∧
    continuousLogMoveRangeConvert 1 10 0 = Except.ok 1 ∧
    continuousLogMoveRangeConvert 1 10 1 = Except.ok 10 ∧
    discreteMoveRangeConvert 1 3 0 = Except.ok 1 ∧
    discreteMoveRangeConvert 1 3 1 = Except.ok 3 ∧
    discreteLogMoveRangeConvert 0 10 0 = Except.ok 0 ∧
    discreteLogMoveRangeConvert 0 10 1 = Except.ok 10 := by
  obtain ⟨⟨c1, c2, _⟩, ⟨l1, l2, _⟩, ⟨d1, d2, _, _⟩, ⟨e1, e2, _, _⟩⟩ :=
    move_range_convert_contract 0 1 (by norm_num) 1 10 (by norm_num)
      (by norm_num) 1 3 (by norm_num) 0 10 (by norm_num)
  exact ⟨c1, c2, l1, l2, d1, d2, e1, e2⟩
